import Mathlib

/-!
Verification of the stock reconciliation engine of a retail stock-management
dashboard (React/Firebase).  The core logic lives in a `useFirebaseData` hook
(`src/unnamed/part_001`): a name normalizer, a tiered product matcher, a
sales-to-catalog sync operation, plus two `stockStats` aggregations in the
stock UI modules (`src/src/components/StockModule.tsx`, `src/unnamed/part_000`).
The reconciliation function itself (`calculateStockFinal`, in
`src/utils/calculateStockFinal.ts`) is imported but its source file is not part
of the repository snapshot; it is modelled from the specification where needed.

Strings are modelled as `List Char`; JavaScript regular-expression operations
are given direct recursive models (`\s+` collapse, `[^\w\s]` filter, word-token
removal for `\b(100s?|20s?|25s?)\b`).  JavaScript numbers are modelled as `ℤ`
for integral quantities and `ℚ` for monetary values.
-/

namespace StockVerif

/-- JS `\s` / `trim` whitespace, restricted to the ASCII whitespace characters. -/
def isJsWS (c : Char) : Bool :=
  c = ' ' || c = '\t' || c = '\n' || c = '\r' || c = '\x0b' || c = '\x0c'

/-- JS `\w`: ASCII letters, digits and underscore. -/
def isWordChar (c : Char) : Bool :=
  ('a' ≤ c && c ≤ 'z') || ('A' ≤ c && c ≤ 'Z') || ('0' ≤ c && c ≤ '9') || c = '_'

/-- Model of `String.prototype.toLowerCase`, per character (ASCII range). -/
def lowerL (l : List Char) : List Char := l.map Char.toLower

/-- Drop leading JS whitespace. -/
def trimL (l : List Char) : List Char := l.dropWhile isJsWS

/-- Drop trailing JS whitespace. -/
def trimR (l : List Char) : List Char := (l.reverse.dropWhile isJsWS).reverse

/-- Model of `String.prototype.trim`. -/
def trimWS (l : List Char) : List Char := trimR (trimL l)

/-- Model of `replace(/\s+/g, ' ')`: the flag records whether the previous character was
whitespace (in which case further whitespace is dropped rather than emitted). -/
def collapseAux : Bool → List Char → List Char
  | _, [] => []
  | prevWS, c :: cs =>
    if isJsWS c then
      if prevWS then collapseAux true cs else ' ' :: collapseAux true cs
    else
      c :: collapseAux false cs

/-- Model of `replace(/\s+/g, ' ')`. -/
def collapseWS (l : List Char) : List Char := collapseAux false l

/-- Model of `replace(/[^\w\s]/g, '')`. -/
def stripPunct (l : List Char) : List Char :=
  l.filter (fun c => isWordChar c || isJsWS c)

/-- The packaging-size noise tokens of `\b(100s?|20s?|25s?)\b`. -/
def noiseTokens : List (List Char) :=
  [['1','0','0'], ['1','0','0','s'], ['2','0'], ['2','0','s'], ['2','5'], ['2','5','s']]

def isNoise (w : List Char) : Bool := noiseTokens.contains w

/-- Emit an accumulated maximal word-character run, dropping it when it is one
of the noise tokens (a regex match `\b(100s?|20s?|25s?)\b` is exactly a maximal
word-character run equal to one of the six tokens). -/
def flushW (w : List Char) : List Char := if isNoise w then [] else w

/-- Model of `replace(/\b(100s?|20s?|25s?)\b/g, '')`: scan the string, accumulating the
current word-character run (in reverse) in `acc`; at a non-word character or at
the end, flush the run. -/
def rmNoiseAux (acc : List Char) : List Char → List Char
  | [] => flushW acc.reverse
  | c :: cs =>
    if isWordChar c then rmNoiseAux (c :: acc) cs
    else flushW acc.reverse ++ c :: rmNoiseAux [] cs

def rmNoise (l : List Char) : List Char := rmNoiseAux [] l

/-- Model of `normalizeProductName` (src/unnamed/part_001:130-138):
lower-case, trim, collapse whitespace runs, strip `[^\w\s]`, remove the noise
tokens, trim again. -/
def normalizeList (l : List Char) : List Char :=
  trimWS (rmNoise (stripPunct (collapseWS (trimWS (lowerL l)))))

def normalizeProductName (s : String) : String := ⟨normalizeList s.data⟩

/-- Model of `category.toLowerCase().trim()` as used throughout the matcher. -/
def lowTrim (l : List Char) : List Char := trimWS (lowerL l)

/-- Model of `s.trim().toLowerCase()` as used in the sync grouping key. -/
def trimLow (l : List Char) : List Char := lowerL (trimWS l)

example : normalizeProductName "  Coca Cola 100S " = "coca cola" := by decide
example : normalizeProductName "a 100 b" = "a  b" := by decide
example : normalizeProductName "a  b" = "a b" := by decide

/-- Helper for the substring test: does `hay` start with `needle`? -/
def isPrefixL : List Char → List Char → Bool
  | [], _ => true
  | _ :: _, [] => false
  | a :: as, b :: bs => a = b && isPrefixL as bs

/-- Model of `String.prototype.includes`: `hay` contains `needle` as a
contiguous substring. -/
def jsIncludes (hay needle : List Char) : Bool :=
  match hay with
  | [] => needle.isEmpty
  | _ :: t => isPrefixL needle hay || jsIncludes t needle

example : jsIncludes "coca cola".data "ca co".data = true := by decide
example : jsIncludes "coca".data "coca cola".data = false := by decide
example : jsIncludes "abc".data "".data = true := by decide

/-- Model of `String.prototype.split(' ')` (splits at every single space,
keeping empty pieces). -/
def splitSpaceAux (acc : List Char) : List Char → List (List Char)
  | [] => [acc.reverse]
  | c :: cs => if c = ' ' then acc.reverse :: splitSpaceAux [] cs else splitSpaceAux (c :: acc) cs

def splitSpace (l : List Char) : List (List Char) := splitSpaceAux [] l

example : splitSpace "a  bc d".data = ["a".data, "".data, "bc".data, "d".data] := by decide

/-- Tokens of a normalized name: `split(' ').filter(word => word.length > 2)`. -/
def keptTokens (l : List Char) : List (List Char) :=
  (splitSpace l).filter (fun w => 2 < w.length)

/-- Model of `Math.ceil(n * 0.7)` for a non-negative integer token count `n`
(exact rational arithmetic; agrees with the IEEE-754 evaluation on the token
counts that arise here). -/
def ceil70 (n : Nat) : Nat := (7 * n + 9) / 10

/-! ## Data model

`Product` and `RegisterSale` follow the `FirestoreProduct` / `FirestoreRegisterSale`
shapes (src/unnamed/part_002).  Dates are modelled at day resolution as `Nat`
(the reconciliation spec compares dates at day granularity); quantities and
stock levels are `ℤ` (negative final stock must be representable); monetary
values are `ℚ`. -/

structure Product where
  id : String
  name : String
  category : String
  price : ℚ
  stock : ℤ
  initialStock : ℤ
  initialStockDate : Option Nat
  quantitySold : ℤ
  minStock : ℤ
  description : String
deriving DecidableEq, Repr, Inhabited

structure RegisterSale where
  id : String
  product : String
  category : String
  register : String
  seller : String
  date : Nat
  quantity : ℤ
  price : ℚ
  total : ℚ
deriving DecidableEq, Repr, Inhabited

/-- Tier 1 of `findMatchingProduct` (src/unnamed/part_001:145-148): normalized
names equal and lower-cased trimmed categories equal. -/
def exactPred (nSale nCat : List Char) (p : Product) : Bool :=
  decide (normalizeList p.name.data = nSale) && decide (lowTrim p.category.data = nCat)

/-- Tier 2 of `findMatchingProduct` (src/unnamed/part_001:153-162): categories
equal and one normalized name contains the other. -/
def containPred (nSale nCat : List Char) (p : Product) : Bool :=
  decide (lowTrim p.category.data = nCat) &&
    (jsIncludes (normalizeList p.name.data) nSale ||
     jsIncludes nSale (normalizeList p.name.data))

/-- Tier 3 of `findMatchingProduct` (src/unnamed/part_001:167-184): categories
equal and at least `Math.ceil(saleWords.length * 0.7)` of the sale's kept
tokens have a catalog token containing them or contained in them. -/
def fuzzyPred (nSale nCat : List Char) (p : Product) : Bool :=
  let nProd := normalizeList p.name.data
  if lowTrim p.category.data = nCat then
    let saleWords := keptTokens nSale
    let productWords := keptTokens nProd
    let matchingWords := saleWords.filter (fun w =>
      productWords.any (fun pw => jsIncludes pw w || jsIncludes w pw))
    decide (ceil70 saleWords.length ≤ matchingWords.length)
  else
    false

/-- Model of `findMatchingProduct` (src/unnamed/part_001:140-187): three tiers,
first tier producing a match wins. -/
def findMatchingProduct (saleName saleCategory : String) (products : List Product) :
    Option Product :=
  let nSale := normalizeList saleName.data
  let nCat := lowTrim saleCategory.data
  match products.find? (exactPred nSale nCat) with
  | some m => some m
  | none =>
    match products.find? (containPred nSale nCat) with
    | some m => some m
    | none => products.find? (fuzzyPred nSale nCat)

/-- The matcher truncated after tier 2 (used to express that the fuzzy tier is
not consulted when an earlier tier matches). -/
def findMatchingProduct12 (saleName saleCategory : String) (products : List Product) :
    Option Product :=
  let nSale := normalizeList saleName.data
  let nCat := lowTrim saleCategory.data
  match products.find? (exactPred nSale nCat) with
  | some m => some m
  | none => products.find? (containPred nSale nCat)

/-! ## Stock reconciliation -/

/-- A sale matches a product when the tiered matcher resolves it to that
product (spec section 4.3 step 1: filter transactions to those that match the
product, using the normalized product and category fields of both sides). -/
def saleMatches (s : RegisterSale) (p : Product) : Bool :=
  (findMatchingProduct s.product s.category [p]).isSome

structure StockCalcResult where
  finalStock : ℤ
  validSales : List RegisterSale
  ignoredSales : List RegisterSale
  hasInconsistentStock : Bool
  warningMessage : Option String
deriving DecidableEq, Repr, Inhabited

/-- Modelled from the spec: the implementation file
`src/utils/calculateStockFinal.ts` is absent from the repository (only its
callers are present).  Per spec section 4.3: filter the transactions to those
matching the product; when `initialStockDate` is present, sales strictly before
it are ignored and sales on or after it (day resolution) are attributable;
`finalStock = initialStock - sum(attributable quantities)`, never clamped;
the result is inconsistent when `finalStock < 0` or some sales were ignored. -/
def calculateStockFinal (p : Product) (sales : List RegisterSale) : StockCalcResult :=
  let matched := sales.filter (fun s => saleMatches s p)
  let valid :=
    match p.initialStockDate with
    | none => matched
    | some d => matched.filter (fun s => decide (d ≤ s.date))
  let ignored :=
    match p.initialStockDate with
    | none => []
    | some d => matched.filter (fun s => decide (s.date < d))
  let sold := (valid.map (fun s => s.quantity)).sum
  let fs := p.initialStock - sold
  let inconsistent := decide (fs < 0) || !ignored.isEmpty
  { finalStock := fs
    validSales := valid
    ignoredSales := ignored
    hasInconsistentStock := inconsistent
    warningMessage := if inconsistent then some "Stock incohérent" else none }

/-- The per-product update performed by `recalculateProductQuantities`
(src/unnamed/part_001:386-409): `initialStock` falls back to
`stock + quantitySold` when falsy (0), `quantitySold` becomes the sum of the
valid sales' quantities, `stock` becomes the calculated final stock. -/
def updatedProduct (sales : List RegisterSale) (p : Product) : Product :=
  let calcRes := calculateStockFinal p sales
  let initialStock := if p.initialStock = 0 then p.stock + p.quantitySold else p.initialStock
  let totalQuantitySold := (calcRes.validSales.map (fun s => s.quantity)).sum
  { p with
    initialStock := initialStock
    quantitySold := totalQuantitySold
    stock := calcRes.finalStock }

/-- Model of the pure part of `recalculateProductQuantities`
(src/unnamed/part_001:386-409). -/
def recalculateProductQuantities (products : List Product) (sales : List RegisterSale) :
    List Product :=
  products.map (updatedProduct sales)

/-! ## Aggregation (the two `stockStats` computations) -/

structure StockStats where
  totalProducts : ℕ
  totalStock : ℤ
  totalValue : ℚ
  outOfStock : ℕ
  lowStock : ℕ
deriving DecidableEq, Repr

/-- Model of the `stockStats` memo of `src/src/components/StockModule.tsx`
(lines 319-335): filter counts over the products' cached `stock` field. -/
def stockStatsFilter (products : List Product) : StockStats :=
  { totalProducts := products.length
    totalStock := (products.map (fun p => p.stock)).sum
    totalValue := (products.map (fun p => (p.stock : ℚ) * p.price)).sum
    outOfStock := (products.filter (fun p => decide (p.stock = 0))).length
    lowStock := (products.filter (fun p => decide (0 < p.stock) && decide (p.stock ≤ p.minStock))).length }

/-- One `cache.set(product.id, calculation)` step of the JS `Map` building the
`stockCalculationCache`: update in place on a key hit, append on a miss. -/
def cacheStep (sales : List RegisterSale) (m : List (String × StockCalcResult))
    (p : Product) : List (String × StockCalcResult) :=
  let calcRes := calculateStockFinal p sales
  if m.any (fun e => e.1 = p.id) then
    m.map (fun e => if e.1 = p.id then (e.1, calcRes) else e)
  else
    m ++ [(p.id, calcRes)]

/-- Model of the `stockCalculationCache` of `src/unnamed/part_000` (lines
122-131): a JS `Map` from product id to calculation, built over all products
(later entries overwrite earlier ones with the same id). -/
def stockCalcCache (products : List Product) (sales : List RegisterSale) :
    List (String × StockCalcResult) :=
  products.foldl (cacheStep sales) []

/-- Cache lookup with the `?? product.stock` fallback of
`src/unnamed/part_000:416-417`. -/
def cachedFinalStock (cache : List (String × StockCalcResult)) (p : Product) : ℤ :=
  match cache.find? (fun e => e.1 = p.id) with
  | some e => e.2.finalStock
  | none => p.stock

/-- One product of the `products.forEach` accumulation of the part_000
`stockStats` (lines 415-427): `if (finalStock === 0) outOfStock++;
else if (finalStock <= product.minStock) lowStock++`. -/
def statsStep (cache : List (String × StockCalcResult)) (acc : StockStats)
    (p : Product) : StockStats :=
  let finalStock := cachedFinalStock cache p
  { acc with
    totalStock := acc.totalStock + finalStock
    totalValue := acc.totalValue + (finalStock : ℚ) * p.price
    outOfStock := if finalStock = 0 then acc.outOfStock + 1 else acc.outOfStock
    lowStock :=
      if finalStock = 0 then acc.lowStock
      else if finalStock ≤ p.minStock then acc.lowStock + 1
      else acc.lowStock }

/-- Model of the `stockStats` memo of `src/unnamed/part_000` (lines 408-437):
a `forEach` accumulation where `outOfStock` counts `finalStock === 0` and the
`else if` counts `finalStock <= minStock` as low stock. -/
def stockStatsCache (products : List Product) (sales : List RegisterSale) : StockStats :=
  products.foldl (statsStep (stockCalcCache products sales))
    { totalProducts := products.length, totalStock := 0, totalValue := 0,
      outOfStock := 0, lowStock := 0 }

/-! ## Sales-to-catalog sync (`autoSyncProductsFromSales`, src/unnamed/part_001:190-329) -/

structure SalesGroup where
  name : String
  category : String
  totalQuantitySold : ℤ
  averagePrice : ℚ
  firstSaleDate : Nat
  lastSaleDate : Nat
  salesCount : ℕ
deriving DecidableEq, Repr, Inhabited

/-- The grouping key of src/unnamed/part_001:214:
the string `product.trim().toLowerCase() + "|" + category.trim().toLowerCase()`. -/
def saleKey (s : RegisterSale) : List Char :=
  trimLow s.product.data ++ '|' :: trimLow s.category.data

/-- Initial accumulator entry for a group (src/unnamed/part_001:224-232): the
stored display name and category are the first sale's trimmed values. -/
def newGroup (s : RegisterSale) : SalesGroup :=
  { name := ⟨trimWS s.product.data⟩
    category := ⟨trimWS s.category.data⟩
    totalQuantitySold := s.quantity
    averagePrice := s.price
    firstSaleDate := s.date
    lastSaleDate := s.date
    salesCount := 1 }

/-- Folding one more sale into a group (src/unnamed/part_001:217-222): the
running average is the incremental mean weighted by the sales count so far. -/
def updGroup (g : SalesGroup) (s : RegisterSale) : SalesGroup :=
  { g with
    totalQuantitySold := g.totalQuantitySold + s.quantity
    averagePrice := (g.averagePrice * (g.salesCount : ℚ) + s.price) / ((g.salesCount : ℚ) + 1)
    salesCount := g.salesCount + 1
    lastSaleDate := if g.lastSaleDate < s.date then s.date else g.lastSaleDate
    firstSaleDate := if s.date < g.firstSaleDate then s.date else g.firstSaleDate }

/-- One step of the `salesProductMap` accumulation: a JS `Map` keeps insertion
order, updating in place on a key hit and appending on a miss. -/
def insertSale (m : List (List Char × SalesGroup)) (s : RegisterSale) :
    List (List Char × SalesGroup) :=
  let k := saleKey s
  if m.any (fun e => e.1 = k) then
    m.map (fun e => if e.1 = k then (e.1, updGroup e.2 s) else e)
  else
    m ++ [(k, newGroup s)]

/-- Model of the `salesProductMap` built at src/unnamed/part_001:212-234. -/
def groupSales (sales : List RegisterSale) : List (List Char × SalesGroup) :=
  sales.foldl insertSale []

/-- The groups with no catalog match (src/unnamed/part_001:244-253). -/
def missingGroups (sales : List RegisterSale) (products : List Product) :
    List (List Char × SalesGroup) :=
  (groupSales sales).filter
    (fun e => (findMatchingProduct e.2.name e.2.category products).isNone)

/-- Model of `Math.ceil(q / 10)` on an integer quantity:
`⌈q/10⌉ = ⌊(q+9)/10⌋`. -/
def ceilDiv10 (q : ℤ) : ℤ := (q + 9).fdiv 10

/-- Model of `Math.round(q * 100) / 100` (JS `Math.round` rounds half toward
positive infinity, i.e. `⌊x + 1/2⌋`). -/
def round2 (q : ℚ) : ℚ := ((⌊q * 100 + 1 / 2⌋ : ℤ) : ℚ) / 100

/-- The product synthesized for one missing group (src/unnamed/part_001:275-309).
Firestore generates a fresh random document id; it is modelled by the group's
index.  The French description of the source carries the sales count and the
first-sale date; the date formatting is abbreviated since nothing depends on it. -/
def mkNewProduct (idx : ℕ) (g : SalesGroup) : Product :=
  { id := "auto-" ++ toString idx
    name := g.name
    category := g.category
    price := round2 g.averagePrice
    stock := 0
    initialStock := max g.totalQuantitySold 10
    initialStockDate := none
    quantitySold := g.totalQuantitySold
    minStock := max (ceilDiv10 g.totalQuantitySold) 5
    description := "Auto-créé depuis les ventes (" ++ toString g.salesCount ++ " ventes)" }

/-- Split a list into chunks of `n` (the `BATCH_SIZE = 200` slicing of
src/unnamed/part_001:266-271), via a fuel argument for termination. -/
def chunksAux (n : ℕ) : ℕ → List α → List (List α)
  | 0, _ => []
  | _, [] => []
  | fuel + 1, x :: xs => (x :: xs).take n :: chunksAux n fuel ((x :: xs).drop n)

def chunkList (n : ℕ) (l : List α) : List (List α) := chunksAux n l.length l

example : chunkList 2 [1, 2, 3, 4, 5] = [[1, 2], [3, 4], [5]] := by decide

/-- Sequential chunk commits against an environment oracle: chunk `k` commits
iff `oracle.getD k true`; the first failing commit aborts the loop.  Returns
the committed products and whether every chunk committed. -/
def commitChunksAux (oracle : List Bool) : ℕ → List (List Product) → List Product × Bool
  | _, [] => ([], true)
  | k, c :: cs =>
    if oracle.getD k true then
      let rest := commitChunksAux oracle (k + 1) cs
      (c ++ rest.1, rest.2)
    else
      ([], false)

def commitChunks (oracle : List Bool) (chunks : List (List Product)) : List Product × Bool :=
  commitChunksAux oracle 0 chunks

def noSalesMsg : String := "Aucune donnée de vente disponible pour la synchronisation."

def noopSummary (totalGroups : ℕ) : String :=
  "✅ Tous les produits des ventes (" ++ toString totalGroups ++
    ") existent déjà dans le stock. Aucune synchronisation nécessaire."

def syncErrorMsg : String := "Erreur lors de la synchronisation automatique des produits"

/-- Abbreviated model of `generateSyncSummary` (src/unnamed/part_001:332-371):
the source emits a long French report (counts, category breakdown, average
price); only the counts are retained since no claim inspects the text. -/
def generateSyncSummary (created : List Product) (totalSalesProducts : ℕ) : String :=
  "🎉 Synchronisation automatique terminée avec succès ! " ++
    toString totalSalesProducts ++ " produits uniques trouvés dans les ventes, " ++
    toString created.length ++ " nouveaux produits créés dans le stock."

structure SyncResult where
  created : List Product
  summary : String
deriving DecidableEq, Repr

deriving instance DecidableEq for Except

/-- The outcome of a sync run: the products whose writes actually committed in
the external store, and the value returned (or error thrown) to the caller. -/
structure SyncOutcome where
  committed : List Product
  result : Except String SyncResult
deriving DecidableEq, Repr

/-- The list of products synthesized for the missing groups, in group order
(src/unnamed/part_001:275-309). -/
def createdProducts (sales : List RegisterSale) (products : List Product) : List Product :=
  (missingGroups sales products).enum.map (fun e => mkNewProduct e.1 e.2.2)

/-- Model of `autoSyncProductsFromSales` (src/unnamed/part_001:190-329): group
the sales, find the groups missing from the catalog, synthesize a product per
missing group, write them in chunks of 200; any chunk failure throws
`syncErrorMsg` (the `catch` at line 325), discarding the created list. -/
def autoSyncProductsFromSales (sales : List RegisterSale) (products : List Product)
    (oracle : List Bool) : SyncOutcome :=
  if sales.isEmpty then
    { committed := [], result := .ok { created := [], summary := noSalesMsg } }
  else if (missingGroups sales products).isEmpty then
    { committed := []
      result := .ok { created := [], summary := noopSummary (groupSales sales).length } }
  else
    let created := createdProducts sales products
    let cc := commitChunks oracle (chunkList 200 created)
    if cc.2 then
      { committed := cc.1
        result := .ok { created := created
                        summary := generateSyncSummary created (groupSales sales).length } }
    else
      { committed := cc.1, result := .error syncErrorMsg }

/-! ## Basic lemmas about the matcher -/

lemma isPrefixL_refl (l : List Char) : isPrefixL l l = true := by
  induction l with
  | nil => rfl
  | cons a as ih => simp [isPrefixL, ih]

lemma jsIncludes_refl (l : List Char) : jsIncludes l l = true := by
  cases l with
  | nil => rfl
  | cons c t => simp [jsIncludes, isPrefixL_refl]

/-- An exact (tier 1) match also satisfies the containment (tier 2) predicate:
equality of normalized names gives mutual containment. -/
lemma exactPred_imp_containPred {nSale nCat : List Char} {p : Product}
    (h : exactPred nSale nCat p = true) : containPred nSale nCat p = true := by
  unfold exactPred at h
  unfold containPred
  rcases Bool.and_eq_true_iff.mp h with ⟨hname, hcat⟩
  rw [decide_eq_true_eq] at hname
  simp only [hcat, Bool.true_and]
  rw [hname]
  simp [jsIncludes_refl]

/-! ## C1: conservation of stock under reconciliation -/

/-- C1.  For every product and transaction list, the reconciliation result
satisfies `finalStock + sum(attributable quantities) = initialStock` exactly
(no clamping, so the identity also holds when `finalStock` is negative), and
the product update of `recalculateProductQuantities` writes back `stock` and
`quantitySold` values satisfying the same identity. -/
theorem reconciliation_conservation (p : Product) (sales : List RegisterSale) :
    (calculateStockFinal p sales).finalStock
        + ((calculateStockFinal p sales).validSales.map (fun s => s.quantity)).sum
      = p.initialStock
    ∧ (updatedProduct sales p).stock + (updatedProduct sales p).quantitySold
      = p.initialStock := by
  constructor
  · simp only [calculateStockFinal]
    ring
  · simp only [updatedProduct, calculateStockFinal]
    ring

/-! ## C3: the containment tier wins over the fuzzy tier -/

/-- C3.  Whenever some catalog product satisfies the containment tier, the
matcher returns a match satisfying the containment predicate, and the result
is that of the matcher truncated after tier 2 — the fuzzy tier is never
consulted. -/
theorem matcher_containment_tier_wins (saleName saleCategory : String)
    (products : List Product)
    (h : ∃ p ∈ products,
      containPred (normalizeList saleName.data) (lowTrim saleCategory.data) p = true) :
    (∃ m, findMatchingProduct saleName saleCategory products = some m
        ∧ containPred (normalizeList saleName.data) (lowTrim saleCategory.data) m = true)
    ∧ findMatchingProduct saleName saleCategory products
        = findMatchingProduct12 saleName saleCategory products := by
  simp only [findMatchingProduct, findMatchingProduct12]
  cases hf : products.find? (exactPred (normalizeList saleName.data) (lowTrim saleCategory.data)) with
  | some m =>
    exact ⟨⟨m, rfl, exactPred_imp_containPred (List.find?_some hf)⟩, rfl⟩
  | none =>
    have hs : (products.find?
        (containPred (normalizeList saleName.data) (lowTrim saleCategory.data))).isSome := by
      rw [List.find?_isSome]
      obtain ⟨p, hp, hcp⟩ := h
      exact ⟨p, hp, hcp⟩
    obtain ⟨m, hm⟩ := Option.isSome_iff_exists.mp hs
    rw [hm]
    exact ⟨⟨m, rfl, List.find?_some hm⟩, rfl⟩

/-- Witness data for the matcher theorems: a catalog entry whose name strictly
contains the sale name. -/
def wCatalogProd : Product :=
  { id := "w1", name := "coca cola", category := "Boissons", price := 1, stock := 0,
    initialStock := 0, initialStockDate := none, quantitySold := 0, minStock := 0,
    description := "" }

/-- Witness for C3 at a concrete input: the sale `"coca"` qualifies for the
containment tier against `wCatalogProd` and the matcher returns it. -/
theorem matcher_containment_tier_wins_witness :
    (∃ p ∈ [wCatalogProd],
      containPred (normalizeList "coca".data) (lowTrim "boissons ".data) p = true)
    ∧ ((∃ m, findMatchingProduct "coca" "boissons " [wCatalogProd] = some m
        ∧ containPred (normalizeList "coca".data) (lowTrim "boissons ".data) m = true)
      ∧ findMatchingProduct "coca" "boissons " [wCatalogProd]
          = findMatchingProduct12 "coca" "boissons " [wCatalogProd]) :=
  ⟨⟨wCatalogProd, by decide⟩,
   matcher_containment_tier_wins "coca" "boissons " [wCatalogProd] ⟨wCatalogProd, by decide⟩⟩

/-! ## C10: a sale with no kept tokens falls through to a pure category match -/

/-- C10.  When the sale's normalized name has no token longer than 2
characters and the exact and containment tiers fail, the fuzzy threshold
`ceil(0 * 0.7) = 0` is trivially met, so the matcher returns the first catalog
product with an equal (case/whitespace-insensitive) category; in particular it
returns a match whenever any product has an equal category. -/
theorem matcher_empty_tokens_fallback (saleName saleCategory : String)
    (products : List Product)
    (htok : keptTokens (normalizeList saleName.data) = [])
    (h1 : products.find?
      (exactPred (normalizeList saleName.data) (lowTrim saleCategory.data)) = none)
    (h2 : products.find?
      (containPred (normalizeList saleName.data) (lowTrim saleCategory.data)) = none) :
    findMatchingProduct saleName saleCategory products
      = products.find? (fun p => decide (lowTrim p.category.data = lowTrim saleCategory.data))
    ∧ ((∃ p ∈ products, lowTrim p.category.data = lowTrim saleCategory.data) →
        (findMatchingProduct saleName saleCategory products).isSome) := by
  have hpred : fuzzyPred (normalizeList saleName.data) (lowTrim saleCategory.data)
      = fun p => decide (lowTrim p.category.data = lowTrim saleCategory.data) := by
    funext p
    unfold fuzzyPred
    rw [htok]
    by_cases hc : lowTrim p.category.data = lowTrim saleCategory.data
    · simp [hc, ceil70]
    · simp [hc]
  have hmain : findMatchingProduct saleName saleCategory products
      = products.find? (fun p => decide (lowTrim p.category.data = lowTrim saleCategory.data)) := by
    simp only [findMatchingProduct]
    rw [h1, h2, hpred]
  refine ⟨hmain, fun hex => ?_⟩
  rw [hmain, List.find?_isSome]
  obtain ⟨p, hp, hc⟩ := hex
  exact ⟨p, hp, by simpa using hc⟩

/-- Witness for C10 at a concrete input: sale name `"ab"` normalizes to a
single 2-character token (no kept tokens), tiers 1 and 2 fail against
`wCatalogProd`, yet the matcher returns `wCatalogProd` on category alone. -/
theorem matcher_empty_tokens_fallback_witness :
    keptTokens (normalizeList "ab".data) = []
    ∧ ([wCatalogProd].find?
        (exactPred (normalizeList "ab".data) (lowTrim "boissons".data)) = none)
    ∧ ([wCatalogProd].find?
        (containPred (normalizeList "ab".data) (lowTrim "boissons".data)) = none)
    ∧ (findMatchingProduct "ab" "boissons" [wCatalogProd]
        = [wCatalogProd].find?
            (fun p => decide (lowTrim p.category.data = lowTrim "boissons".data))
      ∧ ((∃ p ∈ [wCatalogProd], lowTrim p.category.data = lowTrim "boissons".data) →
          (findMatchingProduct "ab" "boissons" [wCatalogProd]).isSome)) :=
  ⟨by decide, by decide, by decide,
   matcher_empty_tokens_fallback "ab" "boissons" [wCatalogProd]
     (by decide) (by decide) (by decide)⟩

/-! ## C4: the fuzzy tier is exactly the spec's token-overlap criterion -/

/-- The integer threshold of the source agrees with the exact rational
`ceil(0.7 * n)`. -/
lemma ceil70_eq_ceil (n : ℕ) : ceil70 n = ⌈(7 : ℚ) / 10 * n⌉₊ := by
  unfold ceil70
  set k := (7 * n + 9) / 10 with hk
  have h1 : 10 * k ≤ 7 * n + 9 := by omega
  have h2 : 7 * n ≤ 10 * k := by omega
  rcases Nat.eq_zero_or_pos k with h0 | hpos
  · have hn : n = 0 := by omega
    subst hn
    simp [h0]
  · symm
    rw [Nat.ceil_eq_iff (by omega : k ≠ 0)]
    constructor
    · rw [div_mul_eq_mul_div, lt_div_iff₀ (by norm_num : (0 : ℚ) < 10)]
      have hq : (10 : ℚ) * k ≤ 7 * n + 9 := by exact_mod_cast h1
      push_cast [Nat.cast_sub hpos]
      linarith
    · rw [div_mul_eq_mul_div, div_le_iff₀ (by norm_num : (0 : ℚ) < 10)]
      have hq : (7 : ℚ) * n ≤ 10 * k := by exact_mod_cast h2
      linarith

/-- The fuzzy-tier criterion, written from the spec's words: split both
normalized names on whitespace, keep tokens longer than 2 characters; the
product matches iff at least `ceil(0.7 × transactionTokenCount)` of the
transaction's kept tokens each have some catalog token that contains them or
is contained by them. -/
def fuzzySpecMatches (saleName : String) (p : Product) : Prop :=
  let saleTokens := keptTokens (normalizeList saleName.data)
  let catalogTokens := keptTokens (normalizeList p.name.data)
  ⌈(7 : ℚ) / 10 * saleTokens.length⌉₊
    ≤ (saleTokens.filter (fun w =>
        catalogTokens.any (fun pw => jsIncludes pw w || jsIncludes w pw))).length

/-- C4.  For a catalog product whose category equals the transaction's
(case/whitespace-insensitively), the source's fuzzy tier succeeds iff the
spec's token-overlap criterion holds. -/
theorem fuzzy_tier_matches_spec (saleName saleCategory : String) (p : Product)
    (hcat : lowTrim p.category.data = lowTrim saleCategory.data) :
    fuzzyPred (normalizeList saleName.data) (lowTrim saleCategory.data) p = true
      ↔ fuzzySpecMatches saleName p := by
  unfold fuzzyPred fuzzySpecMatches
  simp only [hcat, if_pos, decide_eq_true_eq]
  rw [ceil70_eq_ceil]

/-- Witness for C4 at a concrete input: sale `"coca zero 33cl"` against
`wCatalogProd` (category `Boissons` on both sides). -/
theorem fuzzy_tier_matches_spec_witness :
    lowTrim wCatalogProd.category.data = lowTrim "boissons".data
    ∧ (fuzzyPred (normalizeList "coca zero 33cl".data) (lowTrim "boissons".data) wCatalogProd = true
        ↔ fuzzySpecMatches "coca zero 33cl" wCatalogProd) :=
  ⟨by decide, fuzzy_tier_matches_spec "coca zero 33cl" "boissons" wCatalogProd (by decide)⟩

/-! ## C5: out-of-stock and low-stock counts -/

/-- A product whose reconciled final stock is negative: one matching sale of
quantity 1 against an initial stock of 0. -/
def negProduct : Product :=
  { id := "p1", name := "x", category := "c", price := 1, stock := 0,
    initialStock := 0, initialStockDate := none, quantitySold := 0, minStock := 5,
    description := "" }

def negSale : RegisterSale :=
  { id := "s1", product := "x", category := "c", register := "r", seller := "v",
    date := 0, quantity := 1, price := 1, total := 1 }

/-- Counterexample to C5 as stated: the part_000 `stockStats` counts a product
with reconciled `finalStock = -1` in `lowStock`, where the claim requires
`lowStock` to count only products with `0 < finalStock ≤ minStock` (so this
product should be counted in neither). -/
theorem stockStats_negative_lowStock_cex :
    (calculateStockFinal negProduct [negSale]).finalStock = -1
    ∧ (stockStatsCache [negProduct] [negSale]).lowStock = 1
    ∧ [negProduct].countP (fun p =>
        decide (0 < (calculateStockFinal p [negSale]).finalStock)
          && decide ((calculateStockFinal p [negSale]).finalStock ≤ p.minStock)) = 0 := by
  decide

lemma updatedProduct_stock (sales : List RegisterSale) (p : Product) :
    (updatedProduct sales p).stock = (calculateStockFinal p sales).finalStock := rfl

lemma updatedProduct_minStock (sales : List RegisterSale) (p : Product) :
    (updatedProduct sales p).minStock = p.minStock := rfl

/-- With pairwise-distinct product ids, the cache is one entry per product in
order, with no overwrites. -/
lemma stockCalcCache_go (sales : List RegisterSale) :
    ∀ (l : List Product) (m : List (String × StockCalcResult)),
      (∀ p ∈ l, ∀ e ∈ m, e.1 ≠ p.id) →
      (l.map (fun p => p.id)).Nodup →
      l.foldl (cacheStep sales) m
        = m ++ l.map (fun p => (p.id, calculateStockFinal p sales)) := by
  intro l
  induction l with
  | nil => intro m _ _; simp
  | cons p t ih =>
    intro m hdisj hnd
    have hmiss : m.any (fun e => decide (e.1 = p.id)) = false := by
      rw [List.any_eq_false]
      intro e he
      simpa using hdisj p (by simp) e he
    have hstep : cacheStep sales m p = m ++ [(p.id, calculateStockFinal p sales)] := by
      unfold cacheStep
      simp only [hmiss]
      simp
    rw [List.map_cons, List.nodup_cons] at hnd
    have hrec := ih (m ++ [(p.id, calculateStockFinal p sales)]) ?_ hnd.2
    · rw [List.foldl_cons, hstep, hrec]
      simp
    · intro q hq e he
      rcases List.mem_append.mp he with hm | hone
      · exact hdisj q (by simp [hq]) e hm
      · simp only [List.mem_singleton] at hone
        subst hone
        intro hcontra
        exact hnd.1 (by
          simp only [List.mem_map]
          exact ⟨q, hq, hcontra.symm⟩)

lemma stockCalcCache_eq (products : List Product) (sales : List RegisterSale)
    (h : (products.map (fun p => p.id)).Nodup) :
    stockCalcCache products sales
      = products.map (fun p => (p.id, calculateStockFinal p sales)) := by
  have := stockCalcCache_go sales products [] (by simp) h
  simpa [stockCalcCache] using this

/-- Under distinct product ids, a cache lookup recovers the product's own
calculation. -/
lemma cachedFinalStock_eq (products : List Product) (sales : List RegisterSale)
    (h : (products.map (fun p => p.id)).Nodup) {p : Product} (hp : p ∈ products) :
    cachedFinalStock (stockCalcCache products sales) p
      = (calculateStockFinal p sales).finalStock := by
  rw [stockCalcCache_eq products sales h]
  unfold cachedFinalStock
  induction products with
  | nil => cases hp
  | cons q t ih =>
    rw [List.map_cons, List.nodup_cons] at h
    by_cases hid : q.id = p.id
    · have hqp : q = p := by
        rcases List.mem_cons.mp hp with rfl | hpt
        · rfl
        · exact absurd (List.mem_map.mpr ⟨p, hpt, hid.symm⟩) h.1
      rw [List.map_cons, List.find?_cons_of_pos _ (by simpa using hid)]
      rw [hqp]
    · have hpt : p ∈ t := by
        rcases List.mem_cons.mp hp with rfl | hpt
        · exact absurd rfl hid
        · exact hpt
      rw [List.map_cons, List.find?_cons_of_neg _ (by simpa using hid)]
      exact ih h.2 hpt

/-- The counter part of the part_000 `stockStats` fold, for any fixed cache:
`outOfStock` adds one per product with cached final stock 0, `lowStock` adds
one per product with cached final stock nonzero and at most `minStock`. -/
lemma statsFold_counts (cache : List (String × StockCalcResult)) :
    ∀ (l : List Product) (acc : StockStats),
      (l.foldl (statsStep cache) acc).outOfStock
          = acc.outOfStock + l.countP (fun p => decide (cachedFinalStock cache p = 0))
      ∧ (l.foldl (statsStep cache) acc).lowStock
          = acc.lowStock + l.countP (fun p =>
              !decide (cachedFinalStock cache p = 0)
                && decide (cachedFinalStock cache p ≤ p.minStock)) := by
  intro l
  induction l with
  | nil => intro acc; simp
  | cons p t ih =>
    intro acc
    rw [List.foldl_cons, List.countP_cons, List.countP_cons]
    obtain ⟨ih1, ih2⟩ := ih (statsStep cache acc p)
    constructor
    · rw [ih1]
      unfold statsStep
      by_cases h0 : cachedFinalStock cache p = 0 <;> simp [h0] <;> omega
    · rw [ih2]
      unfold statsStep
      by_cases h0 : cachedFinalStock cache p = 0
      · simp [h0]
      · by_cases hle : cachedFinalStock cache p ≤ p.minStock <;> simp [h0, hle] <;> omega

/-- C5, amended.  Over the reconciled final stocks: the filter-based
`stockStats` of StockModule.tsx counts `outOfStock = #{finalStock = 0}` and
`lowStock = #{0 < finalStock ≤ minStock}` exactly as claimed; the cache-based
`stockStats` of part_000 counts the same `outOfStock`, but its `lowStock`
counts every product with `finalStock ≠ 0` and `finalStock ≤ minStock`,
including products with negative final stock. -/
theorem stockStats_counts_amended (products : List Product) (sales : List RegisterSale)
    (hids : (products.map (fun p => p.id)).Nodup) :
    (stockStatsFilter (recalculateProductQuantities products sales)).outOfStock
        = products.countP (fun p => decide ((calculateStockFinal p sales).finalStock = 0))
    ∧ (stockStatsFilter (recalculateProductQuantities products sales)).lowStock
        = products.countP (fun p =>
            decide (0 < (calculateStockFinal p sales).finalStock)
              && decide ((calculateStockFinal p sales).finalStock ≤ p.minStock))
    ∧ (stockStatsCache products sales).outOfStock
        = products.countP (fun p => decide ((calculateStockFinal p sales).finalStock = 0))
    ∧ (stockStatsCache products sales).lowStock
        = products.countP (fun p =>
            !decide ((calculateStockFinal p sales).finalStock = 0)
              && decide ((calculateStockFinal p sales).finalStock ≤ p.minStock)) := by
  refine ⟨?_, ?_, ?_, ?_⟩
  · simp only [stockStatsFilter, recalculateProductQuantities,
      ← List.countP_eq_length_filter, List.countP_map]
    exact List.countP_congr (fun p _ => by
      simp [Function.comp, updatedProduct_stock])
  · simp only [stockStatsFilter, recalculateProductQuantities,
      ← List.countP_eq_length_filter, List.countP_map]
    exact List.countP_congr (fun p _ => by
      simp [Function.comp, updatedProduct_stock, updatedProduct_minStock])
  · unfold stockStatsCache
    rw [(statsFold_counts (stockCalcCache products sales) products _).1]
    simp only [Nat.zero_add]
    exact List.countP_congr (fun p hp => by
      simp [cachedFinalStock_eq products sales hids hp])
  · unfold stockStatsCache
    rw [(statsFold_counts (stockCalcCache products sales) products _).2]
    simp only [Nat.zero_add]
    exact List.countP_congr (fun p hp => by
      simp [cachedFinalStock_eq products sales hids hp])

/-- Witness for the amended C5 at a concrete input. -/
theorem stockStats_counts_amended_witness :
    ([negProduct].map (fun p => p.id)).Nodup
    ∧ (stockStatsCache [negProduct] [negSale]).lowStock
        = [negProduct].countP (fun p =>
            !decide ((calculateStockFinal p [negSale]).finalStock = 0)
              && decide ((calculateStockFinal p [negSale]).finalStock ≤ p.minStock)) :=
  ⟨by decide, (stockStats_counts_amended [negProduct] [negSale] (by decide)).2.2.2⟩

/-! ## C6: the sync grouping key -/

def noiseSaleA : RegisterSale :=
  { id := "a", product := "coca cola", category := "b", register := "r", seller := "v",
    date := 0, quantity := 1, price := 1, total := 1 }

def noiseSaleB : RegisterSale :=
  { id := "b", product := "coca cola 100s", category := "b", register := "r", seller := "v",
    date := 0, quantity := 1, price := 1, total := 1 }

/-- Counterexample to C6 as stated: two sales whose product names differ only
by the noise token `100s` (their names normalize identically) are nevertheless
put into two distinct groups, because the grouping key uses only
`trim().toLowerCase()` and not the normalizer. -/
theorem sync_grouping_noise_cex :
    normalizeProductName "coca cola 100s" = normalizeProductName "coca cola"
    ∧ (groupSales [noiseSaleA, noiseSaleB]).length = 2 := by
  decide

lemma keys_insertSale (m : List (List Char × SalesGroup)) (s : RegisterSale) :
    (insertSale m s).map Prod.fst
      = if saleKey s ∈ m.map Prod.fst then m.map Prod.fst
        else m.map Prod.fst ++ [saleKey s] := by
  unfold insertSale
  by_cases hhit : m.any (fun e => decide (e.1 = saleKey s)) = true
  · have hmem : saleKey s ∈ m.map Prod.fst := by
      obtain ⟨e, he, hd⟩ := List.any_eq_true.mp hhit
      rw [decide_eq_true_eq] at hd
      exact List.mem_map.mpr ⟨e, he, hd⟩
    simp only [hhit, if_true, hmem]
    rw [List.map_map]
    refine List.map_congr_left (fun e _ => ?_)
    by_cases h1 : e.1 = saleKey s <;> simp [h1]
  · have hmem : saleKey s ∉ m.map Prod.fst := by
      intro hc
      obtain ⟨e, he, hfe⟩ := List.mem_map.mp hc
      exact hhit (List.any_eq_true.mpr ⟨e, he, by simp [hfe]⟩)
    simp only [Bool.not_eq_true] at hhit
    simp [hhit, hmem]

lemma keys_groupSales_go :
    ∀ (sales : List RegisterSale) (m : List (List Char × SalesGroup)) (k : List Char),
      (k ∈ (sales.foldl insertSale m).map Prod.fst
        ↔ k ∈ m.map Prod.fst ∨ k ∈ sales.map saleKey) := by
  intro sales
  induction sales with
  | nil => intro m k; simp
  | cons s t ih =>
    intro m k
    rw [List.foldl_cons, ih (insertSale m s) k, keys_insertSale]
    by_cases hhit : saleKey s ∈ m.map Prod.fst
    · simp only [hhit, if_true, List.map_cons, List.mem_cons]
      constructor
      · tauto
      · rintro (hm | rfl | ht) <;> tauto
    · simp only [hhit, if_false, List.map_cons, List.mem_cons, List.mem_append,
        List.mem_singleton]
      tauto

/-- C6, amended.  The sync operation groups sales by the key
`product.trim().toLowerCase() + "|" + category.trim().toLowerCase()`
(`saleKey`) — plain trimming and lower-casing, not the full normalizer — so
the group keys are exactly the sale keys; names differing only by noise
tokens or punctuation produce different keys and therefore different groups. -/
theorem sync_grouping_key_amended (sales : List RegisterSale) (k : List Char) :
    (∃ g, (k, g) ∈ groupSales sales) ↔ k ∈ sales.map saleKey := by
  have h1 : (∃ g, (k, g) ∈ groupSales sales) ↔ k ∈ (groupSales sales).map Prod.fst := by
    constructor
    · rintro ⟨g, hg⟩
      exact List.mem_map.mpr ⟨(k, g), hg, rfl⟩
    · intro hm
      obtain ⟨e, he, hfe⟩ := List.mem_map.mp hm
      exact ⟨e.2, by rwa [show (k, e.2) = e from Prod.ext hfe.symm rfl]⟩
  rw [h1]
  have := keys_groupSales_go sales [] k
  simpa [groupSales] using this

/-! ## C7: the attributes of synthesized products -/

/-- On any `ok` result of the sync, the returned `created` list is exactly the
per-missing-group synthesis (in the no-sales and no-op branches both sides are
empty). -/
lemma sync_ok_created_eq (sales : List RegisterSale) (products : List Product)
    (oracle : List Bool) (r : SyncResult)
    (hok : (autoSyncProductsFromSales sales products oracle).result = .ok r) :
    r.created = createdProducts sales products := by
  simp only [autoSyncProductsFromSales] at hok
  split_ifs at hok with h1 h2 h3
  · simp only [Except.ok.injEq] at hok
    rw [← hok]
    have hs : sales = [] := by simpa [List.isEmpty_iff] using h1
    subst hs
    rfl
  · simp only [Except.ok.injEq] at hok
    rw [← hok]
    have hm : missingGroups sales products = [] := by
      simpa [List.isEmpty_iff] using h2
    simp [createdProducts, hm]
  · simp only [Except.ok.injEq] at hok
    rw [← hok]

/-- C7.  For every missing transaction group `g`, a returned sync result
contains a product synthesized from `g`: its `created` list is exactly one
product per missing group, and the one for `g` carries that group's name and
category, `initialStock = max(totalQuantitySold, 10)`, `currentStock = 0`,
`minStock = max(ceil(totalQuantitySold / 10), 5)` and unit price equal to the
group's running average price (the incremental mean, weighted by the count of
transactions folded so far — see `updGroup`) rounded to 2 decimal places. -/
theorem sync_missing_groups_synthesized (sales : List RegisterSale)
    (products : List Product) (oracle : List Bool) (r : SyncResult)
    (hok : (autoSyncProductsFromSales sales products oracle).result = .ok r) :
    r.created = (missingGroups sales products).enum.map (fun e => mkNewProduct e.1 e.2.2)
    ∧ ∀ k g, (k, g) ∈ missingGroups sales products →
        ∃ p ∈ r.created,
          p.name = g.name ∧ p.category = g.category ∧ p.stock = 0
          ∧ p.initialStock = max g.totalQuantitySold 10
          ∧ p.minStock = max (ceilDiv10 g.totalQuantitySold) 5
          ∧ p.price = round2 g.averagePrice := by
  have hc : r.created = createdProducts sales products :=
    sync_ok_created_eq sales products oracle r hok
  refine ⟨hc, ?_⟩
  intro k g hkg
  obtain ⟨i, hi, hgi⟩ := List.mem_iff_getElem.mp hkg
  refine ⟨mkNewProduct i g, ?_, rfl, rfl, rfl, rfl, rfl, rfl⟩
  rw [hc]
  show mkNewProduct i g
    ∈ (missingGroups sales products).enum.map (fun e => mkNewProduct e.1 e.2.2)
  have hlen : i < ((missingGroups sales products).enum.map
      (fun e => mkNewProduct e.1 e.2.2)).length := by
    simpa [List.enum_length] using hi
  have hval : ((missingGroups sales products).enum.map
      (fun e => mkNewProduct e.1 e.2.2))[i] = mkNewProduct i g := by
    rw [List.getElem_map, List.getElem_enum]
    rw [hgi]
  exact hval ▸ List.getElem_mem hlen

/-- Witness data for the sync theorems: a single sale with no catalog. -/
def wSyncSale : RegisterSale :=
  { id := "ws", product := "Tarte citron", category := "Desserts", register := "r",
    seller := "v", date := 3, quantity := 4, price := 3, total := 12 }

def wSyncGroup : SalesGroup := newGroup wSyncSale

def wSyncProduct : Product := mkNewProduct 0 wSyncGroup

def wSyncResult : SyncResult :=
  { created := [wSyncProduct]
    summary := generateSyncSummary [wSyncProduct] 1 }

/-- Witness for C7 at a concrete input: syncing one sale against an empty
catalog, every (here: the one) missing group gets its synthesized product with
the claimed field laws. -/
theorem sync_missing_groups_synthesized_witness :
    (autoSyncProductsFromSales [wSyncSale] [] []).result = .ok wSyncResult
    ∧ (wSyncResult.created
        = (missingGroups [wSyncSale] []).enum.map (fun e => mkNewProduct e.1 e.2.2)
      ∧ ∀ k g, (k, g) ∈ missingGroups [wSyncSale] [] →
          ∃ p ∈ wSyncResult.created,
            p.name = g.name ∧ p.category = g.category ∧ p.stock = 0
            ∧ p.initialStock = max g.totalQuantitySold 10
            ∧ p.minStock = max (ceilDiv10 g.totalQuantitySold) 5
            ∧ p.price = round2 g.averagePrice) :=
  ⟨rfl, sync_missing_groups_synthesized [wSyncSale] [] [] wSyncResult rfl⟩

/-! ## C9: sync no-op when everything matches -/

/-- C9.  When every transaction group already matches an existing catalog
product, the sync returns `created = []` with the explicit
`noopSummary` text — a normal `ok` result, not an error — and commits no
writes. -/
theorem sync_noop (sales : List RegisterSale) (products : List Product)
    (oracle : List Bool) (hne : sales ≠ [])
    (hall : ∀ e ∈ groupSales sales,
      (findMatchingProduct e.2.name e.2.category products).isSome) :
    autoSyncProductsFromSales sales products oracle
      = { committed := []
          result := .ok { created := []
                          summary := noopSummary (groupSales sales).length } } := by
  have h1 : sales.isEmpty = false := by
    simpa [List.isEmpty_iff] using hne
  have h2 : missingGroups sales products = [] := by
    rw [missingGroups, List.filter_eq_nil_iff]
    intro e he hc
    have hs := hall e he
    rw [Option.isNone_iff_eq_none] at hc
    rw [hc] at hs
    cases hs
  simp [autoSyncProductsFromSales, h1, h2]

/-- A sale that tier-1 matches `wCatalogProd`. -/
def wNoopSale : RegisterSale :=
  { id := "wn", product := "Coca Cola", category := "boissons", register := "r",
    seller := "v", date := 1, quantity := 1, price := 2, total := 2 }

/-- Witness for C9 at a concrete input: one sale whose group matches the only
catalog product; sync is a no-op. -/
theorem sync_noop_witness :
    [wNoopSale] ≠ ([] : List RegisterSale)
    ∧ (∀ e ∈ groupSales [wNoopSale],
        (findMatchingProduct e.2.name e.2.category [wCatalogProd]).isSome)
    ∧ autoSyncProductsFromSales [wNoopSale] [wCatalogProd] []
        = { committed := []
            result := .ok { created := []
                            summary := noopSummary (groupSales [wNoopSale]).length } } :=
  ⟨by decide, by decide,
   sync_noop [wNoopSale] [wCatalogProd] [] (by decide) (by decide)⟩

/-! ## C8: visibility of partial success under chunked persistence -/

lemma chunksAux_join (n : ℕ) (hn : 0 < n) :
    ∀ (fuel : ℕ) (l : List α), l.length ≤ fuel → (chunksAux n fuel l).flatten = l := by
  intro fuel
  induction fuel with
  | zero =>
    intro l hl
    have : l = [] := List.eq_nil_of_length_eq_zero (Nat.le_zero.mp hl)
    subst this
    rfl
  | succ f ih =>
    intro l hl
    cases l with
    | nil => rfl
    | cons x xs =>
      show (List.take n (x :: xs) :: chunksAux n f (List.drop n (x :: xs))).flatten = x :: xs
      rw [List.flatten_cons, ih (List.drop n (x :: xs)) ?_, List.take_append_drop]
      rw [List.length_drop]
      simp only [List.length_cons] at hl ⊢
      omega

lemma chunkList_join (n : ℕ) (hn : 0 < n) (l : List α) : (chunkList n l).flatten = l :=
  chunksAux_join n hn l.length l le_rfl

lemma commitChunksAux_all_committed (oracle : List Bool) :
    ∀ (chunks : List (List Product)) (k : ℕ),
      (commitChunksAux oracle k chunks).2 = true →
      (commitChunksAux oracle k chunks).1 = chunks.flatten := by
  intro chunks
  induction chunks with
  | nil => intro k _; rfl
  | cons c cs ih =>
    intro k h
    by_cases ho : oracle.getD k true
    · simp only [commitChunksAux, ho, if_true] at h ⊢
      rw [List.flatten_cons, ih (k + 1) h]
    · simp only [commitChunksAux, ho, if_false] at h
      cases h

/-- C8, amended.  The sync reports a `created` list only when every chunk
commit succeeds, and then the committed products are exactly the returned
`created` list.  On a chunk failure partway through, the operation instead
throws a generic error (see `sync_partial_failure_cex`): the committed chunks
are not reported. -/
theorem sync_created_iff_committed (sales : List RegisterSale) (products : List Product)
    (oracle : List Bool) (r : SyncResult)
    (hok : (autoSyncProductsFromSales sales products oracle).result = .ok r) :
    (autoSyncProductsFromSales sales products oracle).committed = r.created := by
  simp only [autoSyncProductsFromSales] at hok ⊢
  split_ifs at hok ⊢ with h1 h2 h3
  · simp only [Except.ok.injEq] at hok
    rw [← hok]
  · simp only [Except.ok.injEq] at hok
    rw [← hok]
  · simp only [Except.ok.injEq] at hok
    rw [← hok]
    have := commitChunksAux_all_committed oracle (chunkList 200 (createdProducts sales products)) 0 h3
    rw [commitChunks, this, chunkList_join 200 (by norm_num)]

/-- Witness for the amended C8 at a concrete input: a fully successful run
returns exactly the committed products. -/
theorem sync_created_iff_committed_witness :
    (autoSyncProductsFromSales [wSyncSale] [] []).result = .ok wSyncResult
    ∧ (autoSyncProductsFromSales [wSyncSale] [] []).committed = wSyncResult.created :=
  ⟨rfl, sync_created_iff_committed [wSyncSale] [] [] wSyncResult rfl⟩

/-- The `i`-th distinct two-letter product name (15 × 15 ≥ 201 combinations). -/
def cexSaleName (i : ℕ) : String :=
  ⟨[Char.ofNat (97 + i / 15), Char.ofNat (97 + i % 15)]⟩

def bigSale (i : ℕ) : RegisterSale :=
  { id := "", product := cexSaleName i, category := "c", register := "", seller := "",
    date := 0, quantity := 1, price := 1, total := 1 }

/-- 201 sales with pairwise-distinct product names: two hundred one missing
groups, which the sync writes in one chunk of 200 and one chunk of 1. -/
def bigSales : List RegisterSale := (List.range 201).map bigSale

set_option maxHeartbeats 4000000 in
set_option maxRecDepth 20000 in
/-- Counterexample to C8 as stated: against an environment where the first
chunk commit succeeds and the second fails, the sync commits 200 products but
returns only the thrown error — the committed chunk is not visible in any
returned `created` list. -/
theorem sync_partial_failure_cex :
    (autoSyncProductsFromSales bigSales [] [true, false]).committed.length = 200
    ∧ (autoSyncProductsFromSales bigSales [] [true, false]).result = .error syncErrorMsg := by
  decide

/-! ## C2: the normalizer is not idempotent (noise-token removal can leave a
doubled space that only the next pass collapses), but a second pass reaches a
fixpoint.  The development below characterizes the normal forms of each
pipeline stage. -/

/-- Counterexample to C2 as stated: removing the standalone noise token `100`
leaves two adjacent spaces, so normalizing once yields `"a  b"` while
normalizing twice yields `"a b"`. -/
theorem normalize_not_idempotent_cex :
    normalizeProductName (normalizeProductName "a 100 b") ≠ normalizeProductName "a 100 b"
    ∧ normalizeProductName "a 100 b" = "a  b"
    ∧ normalizeProductName (normalizeProductName "a 100 b") = "a b" := by
  decide

lemma char_toNat_ofNat (n : ℕ) (h : n.isValidChar) : (Char.ofNat n).toNat = n := by
  unfold Char.ofNat
  rw [dif_pos h]
  rfl

lemma toLower_toLower (c : Char) : c.toLower.toLower = c.toLower := by
  unfold Char.toLower
  by_cases h : c.toNat ≥ 65 ∧ c.toNat ≤ 90
  · rw [if_pos h]
    have hval : (Char.ofNat (c.toNat + 32)).toNat = c.toNat + 32 :=
      char_toNat_ofNat _ (Or.inl (by omega))
    rw [hval, if_neg (by omega)]
  · rw [if_neg h, if_neg h]

/-- Whitespace characters are never word characters. -/
lemma ws_not_word {c : Char} (h : isJsWS c = true) : isWordChar c = false := by
  unfold isJsWS at h
  simp only [Bool.or_eq_true, decide_eq_true_eq] at h
  rcases h with ((((rfl | rfl) | rfl) | rfl) | rfl) | rfl <;> decide

/-- Word characters are never whitespace. -/
lemma word_not_ws {c : Char} (h : isWordChar c = true) : isJsWS c = false := by
  by_cases hw : isJsWS c = true
  · rw [ws_not_word hw] at h
    cases h
  · simpa using hw

/-- A list all of whose elements are fixed by a function is fixed by `map`. -/
lemma map_fixed {f : Char → Char} :
    ∀ {l : List Char}, (∀ c ∈ l, f c = c) → l.map f = l := by
  intro l
  induction l with
  | nil => intro _; rfl
  | cons c t ih =>
    intro h
    rw [List.map_cons, h c (by simp), ih (fun d hd => h d (by simp [hd]))]

/-! Character-membership transport through each stage. -/

lemma mem_trimL {c : Char} {l : List Char} (h : c ∈ trimL l) : c ∈ l :=
  (List.dropWhile_sublist isJsWS).mem h

lemma mem_trimR {c : Char} {l : List Char} (h : c ∈ trimR l) : c ∈ l := by
  unfold trimR at h
  rw [List.mem_reverse] at h
  exact List.mem_reverse.mp ((List.dropWhile_sublist isJsWS).mem h)

lemma mem_trimWS {c : Char} {l : List Char} (h : c ∈ trimWS l) : c ∈ l :=
  mem_trimL (mem_trimR h)

lemma mem_collapseAux {c : Char} :
    ∀ {b : Bool} {l : List Char}, c ∈ collapseAux b l → c = ' ' ∨ c ∈ l := by
  intro b l
  induction l generalizing b with
  | nil => intro h; cases h
  | cons d t ih =>
    intro h
    unfold collapseAux at h
    by_cases hd : isJsWS d = true
    · rw [if_pos hd] at h
      by_cases hb : b = true
      · rcases ih (by simpa [hb] using h) with h1 | h2
        · exact Or.inl h1
        · exact Or.inr (by simp [h2])
      · simp only [Bool.not_eq_true] at hb
        rw [hb] at h
        simp only [Bool.false_eq_true, if_false] at h
        rcases List.mem_cons.mp h with rfl | hmem
        · exact Or.inl rfl
        · rcases ih hmem with h1 | h2
          · exact Or.inl h1
          · exact Or.inr (by simp [h2])
    · rw [if_neg hd] at h
      rcases List.mem_cons.mp h with rfl | hmem
      · exact Or.inr (by simp)
      · rcases ih hmem with h1 | h2
        · exact Or.inl h1
        · exact Or.inr (by simp [h2])

lemma mem_flushW {c : Char} {w : List Char} (h : c ∈ flushW w) : c ∈ w := by
  unfold flushW at h
  by_cases hn : isNoise w = true
  · rw [if_pos hn] at h
    cases h
  · rw [if_neg hn] at h
    exact h

lemma mem_rmNoiseAux {c : Char} :
    ∀ {l acc : List Char}, c ∈ rmNoiseAux acc l → c ∈ acc ∨ c ∈ l := by
  intro l
  induction l with
  | nil =>
    intro acc h
    unfold rmNoiseAux at h
    exact Or.inl (List.mem_reverse.mp (mem_flushW h))
  | cons d t ih =>
    intro acc h
    unfold rmNoiseAux at h
    by_cases hd : isWordChar d = true
    · rw [if_pos hd] at h
      rcases ih h with h1 | h2
      · rcases List.mem_cons.mp h1 with rfl | hacc
        · exact Or.inr (by simp)
        · exact Or.inl hacc
      · exact Or.inr (by simp [h2])
    · rw [if_neg hd] at h
      rcases List.mem_append.mp h with h1 | h2
      · exact Or.inl (List.mem_reverse.mp (mem_flushW h1))
      · rcases List.mem_cons.mp h2 with rfl | hmem
        · exact Or.inr (by simp)
        · rcases ih hmem with ha | hl
          · cases ha
          · exact Or.inr (by simp [hl])

lemma mem_rmNoise {c : Char} {l : List Char} (h : c ∈ rmNoise l) : c ∈ l := by
  rcases mem_rmNoiseAux h with h1 | h2
  · cases h1
  · exact h2

/-- Every character of a normalized string is either a space or the
lower-casing of a character of the input. -/
lemma mem_normalizeList {c : Char} {l : List Char} (h : c ∈ normalizeList l) :
    c = ' ' ∨ c ∈ lowerL l := by
  unfold normalizeList at h
  have h1 := mem_rmNoise (mem_trimWS h)
  have h2 := List.mem_of_mem_filter h1
  rcases mem_collapseAux h2 with hsp | h3
  · exact Or.inl hsp
  · exact Or.inr (mem_trimWS h3)

/-! Idempotence of trimming. -/

lemma dropWhile_idem (p : Char → Bool) (l : List Char) :
    List.dropWhile p (List.dropWhile p l) = List.dropWhile p l := by
  induction l with
  | nil => rfl
  | cons c t ih =>
    rw [List.dropWhile_cons]
    by_cases hc : p c = true
    · rw [if_pos hc]
      exact ih
    · rw [if_neg hc, List.dropWhile_cons, if_neg hc]

lemma trimR_prefix (l : List Char) : trimR l <+: l := by
  unfold trimR
  have h := List.dropWhile_suffix (l := l.reverse) isJsWS
  have h2 := List.reverse_prefix.mpr h
  simpa using h2

lemma trimL_head_not_ws {l : List Char} {c : Char} {t : List Char}
    (h : trimL l = c :: t) : isJsWS c = false := by
  induction l with
  | nil => cases h
  | cons d r ih =>
    unfold trimL at h ih
    rw [List.dropWhile_cons] at h
    by_cases hd : isJsWS d = true
    · rw [if_pos hd] at h
      exact ih h
    · rw [if_neg hd] at h
      cases h
      simpa using hd

lemma trimWS_idem (l : List Char) : trimWS (trimWS l) = trimWS l := by
  unfold trimWS
  have hR : ∀ z : List Char, trimR (trimR z) = trimR z := by
    intro z
    unfold trimR
    rw [List.reverse_reverse, dropWhile_idem]
  have hLR : trimL (trimR (trimL l)) = trimR (trimL l) := by
    cases hz : trimL l with
    | nil => rfl
    | cons c t =>
      have hc : isJsWS c = false := trimL_head_not_ws hz
      rcases trimR_prefix (c :: t) with ⟨u, hu⟩
      cases hd : trimR (c :: t) with
      | nil => rfl
      | cons d t' =>
        have hdc : d = c := by
          rw [hd] at hu
          cases hu
          rfl
        unfold trimL
        rw [List.dropWhile_cons, hdc, if_neg (by simp [hc])]
  rw [hLR, hR]

/-! Normal forms of whitespace collapsing. -/

/-- No two adjacent whitespace characters. -/
def noDoubleWS : List Char → Bool
  | [] => true
  | [_] => true
  | c1 :: c2 :: t => !(isJsWS c1 && isJsWS c2) && noDoubleWS (c2 :: t)

/-- Every whitespace character is a plain space. -/
def wsSpace (l : List Char) : Bool := l.all (fun c => !isJsWS c || c = ' ')

def headNotWS : List Char → Bool
  | [] => true
  | c :: _ => !isJsWS c

lemma noDoubleWS_cons (c : Char) (l : List Char) :
    noDoubleWS (c :: l) = ((!isJsWS c || headNotWS l) && noDoubleWS l) := by
  cases l with
  | nil => simp [noDoubleWS, headNotWS]
  | cons d t => simp [noDoubleWS, headNotWS, Bool.not_and]

lemma collapseAux_head_not_ws (l : List Char) : headNotWS (collapseAux true l) = true := by
  induction l with
  | nil => rfl
  | cons c t ih =>
    unfold collapseAux
    by_cases hc : isJsWS c = true
    · rw [if_pos hc, if_pos rfl]
      exact ih
    · rw [if_neg hc]
      simpa [headNotWS] using hc

lemma collapseAux_wsSpace (b : Bool) (l : List Char) :
    wsSpace (collapseAux b l) = true := by
  induction l generalizing b with
  | nil => rfl
  | cons c t ih =>
    unfold collapseAux
    by_cases hc : isJsWS c = true
    · rw [if_pos hc]
      by_cases hb : b = true
      · rw [hb, if_pos rfl]
        exact ih true
      · simp only [Bool.not_eq_true] at hb
        rw [hb, if_neg (by simp)]
        have := ih true
        simp [wsSpace] at this ⊢
        exact this
    · rw [if_neg hc]
      have := ih false
      simp [wsSpace] at this ⊢
      refine ⟨Or.inl (by simpa using hc), this⟩

lemma collapseAux_noDouble (b : Bool) (l : List Char) :
    noDoubleWS (collapseAux b l) = true := by
  induction l generalizing b with
  | nil => rfl
  | cons c t ih =>
    unfold collapseAux
    by_cases hc : isJsWS c = true
    · rw [if_pos hc]
      by_cases hb : b = true
      · rw [hb, if_pos rfl]
        exact ih true
      · simp only [Bool.not_eq_true] at hb
        rw [hb, if_neg (by simp)]
        rw [noDoubleWS_cons]
        simp [collapseAux_head_not_ws t, ih true]
    · rw [if_neg hc]
      rw [noDoubleWS_cons]
      simp [hc, ih false]

/-- Strings already in collapse normal form are fixed by collapsing. -/
lemma collapse_fix :
    ∀ l : List Char, wsSpace l = true → noDoubleWS l = true →
      (collapseAux false l = l ∧ (headNotWS l = true → collapseAux true l = l)) := by
  intro l
  induction l with
  | nil => exact fun _ _ => ⟨rfl, fun _ => rfl⟩
  | cons c t ih =>
    intro hws hnd
    rw [noDoubleWS_cons] at hnd
    have hwt : wsSpace t = true := by
      simp [wsSpace] at hws ⊢
      exact hws.2
    obtain ⟨hih1, hih2⟩ := ih hwt (Bool.and_elim_right hnd)
    by_cases hc : isJsWS c = true
    · have hsp : c = ' ' := by
        simp [wsSpace] at hws
        rcases hws.1 with h | h
        · rw [hc] at h; cases h
        · exact h
      have hht : headNotWS t = true := by
        have := Bool.and_elim_left hnd
        simp [hc] at this
        exact this
      constructor
      · unfold collapseAux
        rw [if_pos hc, if_neg (by simp), hsp, hih2 hht]
      · intro hhead
        rw [show headNotWS (c :: t) = !isJsWS c from rfl, hc] at hhead
        cases hhead
    · constructor
      · unfold collapseAux
        rw [if_neg hc, hih1]
      · intro _
        unfold collapseAux
        rw [if_neg hc, hih1]

/-- Suffix closure of the no-double-whitespace property. -/
lemma noDoubleWS_append_right {l₁ l₂ : List Char}
    (h : noDoubleWS (l₁ ++ l₂) = true) : noDoubleWS l₂ = true := by
  induction l₁ with
  | nil => exact h
  | cons c t ih =>
    rw [List.cons_append, noDoubleWS_cons] at h
    exact ih (Bool.and_elim_right h)

/-- Prefix closure of the no-double-whitespace property. -/
lemma noDoubleWS_append_left {l₁ l₂ : List Char}
    (h : noDoubleWS (l₁ ++ l₂) = true) : noDoubleWS l₁ = true := by
  induction l₁ with
  | nil => rfl
  | cons c t ih =>
    rw [List.cons_append, noDoubleWS_cons] at h
    rw [noDoubleWS_cons]
    have h1 := Bool.and_elim_left h
    have h2 := ih (Bool.and_elim_right h)
    refine Bool.and_eq_true_iff.mpr ⟨?_, h2⟩
    rcases Bool.or_eq_true_iff.mp h1 with hnw | hh
    · simp [hnw]
    · cases t with
      | nil => simp [headNotWS]
      | cons d t' =>
        rw [List.cons_append] at hh
        simp [headNotWS] at hh ⊢
        exact Or.inr hh

lemma wsSpace_sublist {l₁ l₂ : List Char} (hsub : ∀ c ∈ l₁, c ∈ l₂)
    (h : wsSpace l₂ = true) : wsSpace l₁ = true := by
  simp only [wsSpace, List.all_eq_true] at h ⊢
  exact fun c hc => h c (hsub c hc)

lemma noDoubleWS_trimL {l : List Char} (h : noDoubleWS l = true) :
    noDoubleWS (trimL l) = true := by
  obtain ⟨u, hu⟩ := List.dropWhile_suffix (l := l) isJsWS
  refine @noDoubleWS_append_right u (trimL l) ?_
  rw [show u ++ trimL l = l from hu]
  exact h

lemma noDoubleWS_trimR {l : List Char} (h : noDoubleWS l = true) :
    noDoubleWS (trimR l) = true := by
  obtain ⟨u, hu⟩ := trimR_prefix l
  refine @noDoubleWS_append_left (trimR l) u ?_
  rw [show trimR l ++ u = l from hu]
  exact h

lemma noDoubleWS_trimWS {l : List Char} (h : noDoubleWS l = true) :
    noDoubleWS (trimWS l) = true :=
  noDoubleWS_trimR (noDoubleWS_trimL h)

/-! Normal forms of noise-token removal. -/

def allWordChar (w : List Char) : Bool := w.all isWordChar

/-- Scanner deciding that no maximal word-character run of the string (with
the current partial word `acc`, reversed) is a noise token. -/
def noNoiseAux (acc : List Char) : List Char → Bool
  | [] => !isNoise acc.reverse
  | c :: cs =>
    if isWordChar c then noNoiseAux (c :: acc) cs
    else !isNoise acc.reverse && noNoiseAux [] cs

lemma noNoiseAux_nil (acc : List Char) : noNoiseAux acc [] = !isNoise acc.reverse := rfl

lemma noNoiseAux_cons (acc : List Char) (c : Char) (cs : List Char) :
    noNoiseAux acc (c :: cs)
      = if isWordChar c = true then noNoiseAux (c :: acc) cs
        else !isNoise acc.reverse && noNoiseAux [] cs := rfl

lemma noNoiseAux_word :
    ∀ (w acc : List Char), allWordChar w = true →
      noNoiseAux acc w = !isNoise (acc.reverse ++ w) := by
  intro w
  induction w with
  | nil => intro acc _; simp [noNoiseAux]
  | cons c t ih =>
    intro acc hw
    simp only [allWordChar, List.all_cons, Bool.and_eq_true] at hw
    unfold noNoiseAux
    rw [if_pos hw.1, ih (c :: acc) hw.2]
    simp

lemma noNoiseAux_word_sep :
    ∀ (w acc : List Char) (c : Char) (rest : List Char),
      allWordChar w = true → isWordChar c = false →
      noNoiseAux acc (w ++ c :: rest)
        = (!isNoise (acc.reverse ++ w) && noNoiseAux [] rest) := by
  intro w
  induction w with
  | nil =>
    intro acc c rest _ hc
    rw [List.nil_append, noNoiseAux_cons, if_neg (by simp [hc])]
    simp
  | cons d t ih =>
    intro acc c rest hw hc
    simp only [allWordChar, List.all_cons, Bool.and_eq_true] at hw
    rw [List.cons_append, noNoiseAux_cons, if_pos hw.1, ih (d :: acc) c rest hw.2 hc]
    simp

/-- A string with no noise words is fixed by noise removal. -/
lemma rmNoiseAux_fix :
    ∀ (l acc : List Char), noNoiseAux acc l = true →
      rmNoiseAux acc l = acc.reverse ++ l := by
  intro l
  induction l with
  | nil =>
    intro acc h
    unfold noNoiseAux at h
    unfold rmNoiseAux flushW
    rw [if_neg (by simpa using h)]
    simp
  | cons c t ih =>
    intro acc h
    unfold noNoiseAux at h
    unfold rmNoiseAux
    by_cases hc : isWordChar c = true
    · rw [if_pos hc] at h ⊢
      rw [ih (c :: acc) h]
      simp
    · rw [if_neg hc] at h ⊢
      rw [Bool.and_eq_true] at h
      rw [ih [] h.2]
      unfold flushW
      rw [if_neg (by simpa using h.1)]
      simp

/-- Noise removal leaves no noise words. -/
lemma rmNoiseAux_noNoise :
    ∀ (l acc : List Char), allWordChar acc = true →
      noNoiseAux [] (rmNoiseAux acc l) = true := by
  intro l
  induction l with
  | nil =>
    intro acc hacc
    unfold rmNoiseAux flushW
    by_cases hn : isNoise acc.reverse = true
    · rw [if_pos hn]
      decide
    · rw [if_neg hn]
      rw [noNoiseAux_word acc.reverse [] (by simpa [allWordChar, List.all_reverse] using hacc)]
      simpa using hn
  | cons c t ih =>
    intro acc hacc
    unfold rmNoiseAux
    by_cases hc : isWordChar c = true
    · rw [if_pos hc]
      exact ih (c :: acc) (by simp [allWordChar, hc]; simpa [allWordChar] using hacc)
    · rw [if_neg hc]
      unfold flushW
      by_cases hn : isNoise acc.reverse = true
      · rw [if_pos hn]
        simp only [List.nil_append]
        unfold noNoiseAux
        rw [if_neg hc]
        simp only [List.reverse_nil, Bool.and_eq_true]
        exact ⟨by decide, ih [] rfl⟩
      · rw [if_neg hn]
        rw [noNoiseAux_word_sep acc.reverse [] c (rmNoiseAux [] t)
          (by simpa [allWordChar, List.all_reverse] using hacc) (by simpa using hc)]
        simp only [List.reverse_nil, List.nil_append, Bool.and_eq_true]
        exact ⟨by simpa using hn, ih [] rfl⟩

/-- Collapsing whitespace preserves the absence of noise words (word runs are
unchanged by whitespace collapsing). -/
lemma collapse_noNoise :
    ∀ (l : List Char) (b : Bool) (acc : List Char), allWordChar acc = true →
      (b = true → acc = []) → noNoiseAux acc l = true →
      noNoiseAux acc (collapseAux b l) = true := by
  intro l
  induction l with
  | nil => intro b acc _ _ h; exact h
  | cons c t ih =>
    intro b acc hacc hb h
    unfold collapseAux
    by_cases hc : isWordChar c = true
    · have hcw : isJsWS c = false := word_not_ws hc
      rw [if_neg (by simp [hcw])]
      unfold noNoiseAux at h ⊢
      rw [if_pos hc] at h ⊢
      exact ih false (c :: acc) (by simp [allWordChar, hc]; simpa [allWordChar] using hacc)
        (by simp) h
    · unfold noNoiseAux at h
      rw [if_neg hc] at h
      rw [Bool.and_eq_true] at h
      by_cases hws : isJsWS c = true
      · rw [if_pos hws]
        by_cases hbt : b = true
        · rw [hbt, if_pos rfl]
          have hae : acc = [] := hb hbt
          subst hae
          exact ih true [] rfl (fun _ => rfl) h.2
        · simp only [Bool.not_eq_true] at hbt
          rw [hbt, if_neg (by simp)]
          unfold noNoiseAux
          rw [if_neg (by decide)]
          rw [Bool.and_eq_true]
          exact ⟨h.1, ih true [] rfl (fun _ => rfl) h.2⟩
      · rw [if_neg hws]
        unfold noNoiseAux
        rw [if_neg hc, Bool.and_eq_true]
        exact ⟨h.1, ih false [] rfl (by simp) h.2⟩

lemma trimL_noNoise {l : List Char} (h : noNoiseAux [] l = true) :
    noNoiseAux [] (trimL l) = true := by
  induction l with
  | nil => exact h
  | cons c t ih =>
    unfold trimL
    rw [List.dropWhile_cons]
    by_cases hc : isJsWS c = true
    · rw [if_pos hc]
      unfold noNoiseAux at h
      rw [if_neg (by simp [ws_not_word hc]), Bool.and_eq_true] at h
      exact ih h.2
    · rw [if_neg hc]
      exact h

lemma noNoiseAux_drop_last_ws :
    ∀ (xs acc : List Char) (w : Char), isJsWS w = true →
      noNoiseAux acc (xs ++ [w]) = true → noNoiseAux acc xs = true := by
  intro xs
  induction xs with
  | nil =>
    intro acc w hw h
    rw [List.nil_append, noNoiseAux_cons, if_neg (by simp [ws_not_word hw]),
      Bool.and_eq_true] at h
    exact h.1
  | cons c t ih =>
    intro acc w hw h
    rw [List.cons_append, noNoiseAux_cons] at h
    rw [noNoiseAux_cons]
    by_cases hc : isWordChar c = true
    · rw [if_pos hc] at h ⊢
      exact ih (c :: acc) w hw h
    · rw [if_neg hc] at h ⊢
      rw [Bool.and_eq_true] at h ⊢
      exact ⟨h.1, ih [] w hw h.2⟩

lemma trimR_append_ws (xs : List Char) (c : Char) (hc : isJsWS c = true) :
    trimR (xs ++ [c]) = trimR xs := by
  unfold trimR
  rw [List.reverse_append]
  simp only [List.reverse_cons, List.reverse_nil, List.nil_append, List.singleton_append]
  rw [List.dropWhile_cons, if_pos hc]

lemma trimR_append_not_ws (xs : List Char) (c : Char) (hc : isJsWS c = false) :
    trimR (xs ++ [c]) = xs ++ [c] := by
  unfold trimR
  rw [List.reverse_append]
  simp only [List.reverse_cons, List.reverse_nil, List.nil_append, List.singleton_append]
  rw [List.dropWhile_cons, if_neg (by simp [hc])]
  simp

lemma trimR_noNoise {l : List Char} (h : noNoiseAux [] l = true) :
    noNoiseAux [] (trimR l) = true := by
  have main : ∀ r : List Char, noNoiseAux [] r.reverse = true →
      noNoiseAux [] (trimR r.reverse) = true := by
    intro r
    induction r with
    | nil => intro h; exact h
    | cons c t ih =>
      intro hh
      rw [List.reverse_cons] at hh ⊢
      by_cases hc : isJsWS c = true
      · rw [trimR_append_ws _ _ hc]
        exact ih (noNoiseAux_drop_last_ws t.reverse [] c hc hh)
      · rw [trimR_append_not_ws _ _ (by simpa using hc)]
        exact hh
  have := main l.reverse (by rwa [List.reverse_reverse])
  rwa [List.reverse_reverse] at this

lemma trimWS_noNoise {l : List Char} (h : noNoiseAux [] l = true) :
    noNoiseAux [] (trimWS l) = true :=
  trimR_noNoise (trimL_noNoise h)

/-- Normal form reached by the normalizer up to residual doubled spaces:
lower-case-fixed characters, only word characters and whitespace, all
whitespace plain spaces, trimmed, and no noise words. -/
def CanonN (l : List Char) : Prop :=
  (∀ c ∈ l, c.toLower = c)
  ∧ (∀ c ∈ l, (isWordChar c || isJsWS c) = true)
  ∧ wsSpace l = true
  ∧ trimWS l = l
  ∧ noNoiseAux [] l = true

lemma mem_normalize_keep {c : Char} {l : List Char} (h : c ∈ normalizeList l) :
    c ∈ collapseWS (trimWS (lowerL l)) := by
  unfold normalizeList at h
  exact List.mem_of_mem_filter (mem_rmNoise (mem_trimWS h))

lemma normalize_canon (l : List Char) : CanonN (normalizeList l) := by
  refine ⟨?_, ?_, ?_, ?_, ?_⟩
  · intro c hc
    rcases mem_normalizeList hc with rfl | hm
    · decide
    · obtain ⟨d, _, rfl⟩ := List.mem_map.mp hm
      exact toLower_toLower d
  · intro c hc
    have hmem : c ∈ stripPunct (collapseWS (trimWS (lowerL l))) := by
      unfold normalizeList at hc
      exact mem_rmNoise (mem_trimWS hc)
    unfold stripPunct at hmem
    exact (List.mem_filter.mp hmem).2
  · refine wsSpace_sublist (fun c hc => mem_normalize_keep hc) ?_
    exact collapseAux_wsSpace false (trimWS (lowerL l))
  · unfold normalizeList
    rw [trimWS_idem]
  · unfold normalizeList
    exact trimWS_noNoise (rmNoiseAux_noNoise _ [] rfl)

lemma canon_normalize_eq {y : List Char} (hy : CanonN y) :
    normalizeList y = trimWS (collapseWS y) := by
  obtain ⟨h1, h2, h3, h4, h5⟩ := hy
  unfold normalizeList
  rw [show lowerL y = y from map_fixed h1, h4]
  have hstrip : stripPunct (collapseWS y) = collapseWS y := by
    unfold stripPunct
    rw [List.filter_eq_self]
    intro c hc
    rcases mem_collapseAux hc with rfl | hm
    · decide
    · exact h2 c hm
  rw [hstrip]
  have hnn : noNoiseAux [] (collapseWS y) = true :=
    collapse_noNoise y false [] rfl (by simp) h5
  have hrm : rmNoise (collapseWS y) = collapseWS y := by
    unfold rmNoise
    rw [rmNoiseAux_fix _ [] hnn]
    simp
  rw [hrm]

lemma canon_step {y : List Char} (hy : CanonN y) : CanonN (trimWS (collapseWS y)) := by
  obtain ⟨h1, h2, h3, h4, h5⟩ := hy
  have hmem : ∀ c ∈ trimWS (collapseWS y), c = ' ' ∨ c ∈ y := by
    intro c hc
    exact mem_collapseAux (mem_trimWS hc)
  refine ⟨?_, ?_, ?_, ?_, ?_⟩
  · intro c hc
    rcases hmem c hc with rfl | hm
    · decide
    · exact h1 c hm
  · intro c hc
    rcases hmem c hc with rfl | hm
    · decide
    · exact h2 c hm
  · exact wsSpace_sublist (fun c hc => mem_trimWS hc) (collapseAux_wsSpace false y)
  · exact trimWS_idem _
  · exact trimWS_noNoise (collapse_noNoise y false [] rfl (by simp) h5)

lemma mk_data (l : List Char) : (⟨l⟩ : String).data = l := rfl

lemma normalizeList_triple (l : List Char) :
    normalizeList (normalizeList (normalizeList l)) = normalizeList (normalizeList l) := by
  have hy : CanonN (normalizeList l) := normalize_canon l
  have hz_eq : normalizeList (normalizeList l) = trimWS (collapseWS (normalizeList l)) :=
    canon_normalize_eq hy
  have hz_canon : CanonN (normalizeList (normalizeList l)) := by
    rw [hz_eq]
    exact canon_step hy
  rw [canon_normalize_eq hz_canon]
  have hfix : collapseWS (normalizeList (normalizeList l))
      = normalizeList (normalizeList l) := by
    have hnd : noDoubleWS (normalizeList (normalizeList l)) = true := by
      rw [hz_eq]
      exact noDoubleWS_trimWS (collapseAux_noDouble false (normalizeList l))
    exact (collapse_fix _ hz_canon.2.2.1 hnd).1
  rw [hfix]
  exact hz_canon.2.2.2.1

/-- C2, amended.  The normalizer is not idempotent
(see `normalize_not_idempotent_cex`): removing a noise token can leave a
doubled space.  One further pass reaches a fixpoint:
`normalize (normalize (normalize x)) = normalize (normalize x)` for every
string `x`, i.e. `normalize ∘ normalize` is idempotent. -/
theorem normalize_second_pass_fixpoint (s : String) :
    normalizeProductName (normalizeProductName (normalizeProductName s))
      = normalizeProductName (normalizeProductName s) := by
  simp only [normalizeProductName, mk_data]
  rw [normalizeList_triple]

end StockVerif
